import Mathlib

/-!
Verification of the `rhai-rand` package (`src/lib.rs`).

The package layers a handful of functions over the `rand` crate: bounded
integer/float sampling (`rand(start..end)`, `rand(start..=end)`,
`rand(start, end)`, `rand_float(start, end)`), a probability-weighted
boolean (`rand_bool(p)`), and three array operations (`sample`,
`sample(amount)`, `shuffle`).

Embedding conventions:
* `INT` (`i64`) is modelled by `ℤ` and `FLOAT` (`f64`) by `ℚ`;
* a Rhai `Array` is a `List α`;
* `rand::thread_rng()` is modelled by passing the generator's draws
  explicitly: a bounded integer draw is a natural-number seed reduced
  modulo the range size (uniform seeds give the uniform draw), a float
  draw on a closed interval is a parameter clamped to `[0, 1]`, and the
  Fisher–Yates shuffle consumes a list of seeds, one per step;
* functions taking `&mut Array` are embedded with the borrow threaded
  explicitly, returning the final state of the caller's array next to the
  return value;
* fallible functions return `Except EvalAltResult`.
-/

set_option maxHeartbeats 1000000

namespace RhaiRand

variable {α : Type*}

/-- Evaluation error raised by the fallible functions. The Rust code raises
`EvalAltResult::ErrorArithmetic(message, Position::NONE)`; we keep the
message and drop the position, which is always `NONE` here. -/
inductive EvalAltResult where
  | ErrorArithmetic (msg : String)
deriving DecidableEq

/-- Message `format!("Range is empty: {:?}", range)` for a `Range<INT>`
(also the `format!("Range is empty: {}..{}", start, end)` of the
two-argument forms, which print with the same exclusive notation). -/
def emptyRangeMsgExcl (s e : ℤ) : String :=
  "Range is empty: " ++ toString s ++ ".." ++ toString e

/-- Message `format!("Range is empty: {:?}", range)` for a
`RangeInclusive<INT>`. -/
def emptyRangeMsgIncl (s e : ℤ) : String :=
  "Range is empty: " ++ toString s ++ "..=" ++ toString e

/-- Model of `rand::thread_rng().gen_range(s..e)` on `INT` for a non-empty
range: a uniform draw from the half-open interval, the rng draw exposed as a
natural-number seed reduced modulo the range size `e - s`. -/
def genRangeExcl (s e : ℤ) (seed : ℕ) : ℤ := s + (seed % (e - s).toNat : ℕ)

/-- Model of `rand::thread_rng().gen_range(s..=e)` on `INT` for a non-empty
range: a uniform draw from the closed interval, the rng draw exposed as a
natural-number seed reduced modulo the range size `e - s + 1`. -/
def genRangeIncl (s e : ℤ) (seed : ℕ) : ℤ := s + (seed % (e - s + 1).toNat : ℕ)

/-- Embedding of `rand_exclusive_range` (`rand(start..end)`): reject an empty
`Range` (`Range::is_empty` is `!(start < end)`), else sample it. -/
def rand_exclusive_range (s e : ℤ) (seed : ℕ) : Except EvalAltResult ℤ :=
  if e ≤ s then .error (.ErrorArithmetic (emptyRangeMsgExcl s e))
  else .ok (genRangeExcl s e seed)

/-- Embedding of `rand_inclusive_range` (`rand(start..=end)`): reject an
empty `RangeInclusive` (`RangeInclusive::is_empty` is `!(start <= end)`),
else sample it. -/
def rand_inclusive_range (s e : ℤ) (seed : ℕ) : Except EvalAltResult ℤ :=
  if e < s then .error (.ErrorArithmetic (emptyRangeMsgIncl s e))
  else .ok (genRangeIncl s e seed)

/-- Embedding of `rand_from_to_inclusive` (`rand(start, end)`): the code
rejects `start >= end` and otherwise samples `start..=end`. -/
def rand_from_to_inclusive (s e : ℤ) (seed : ℕ) : Except EvalAltResult ℤ :=
  if s ≥ e then .error (.ErrorArithmetic (emptyRangeMsgExcl s e))
  else .ok (genRangeIncl s e seed)

/-- Model of `rand::thread_rng().gen_range(s..=e)` on `FLOAT` — the inclusive
range the code passes: a uniform draw from the closed interval `[s, e]`. The
rng draw is the parameter `t` clamped to `[0, 1]`; `t = 1` reaches the
inclusive upper bound `e`. -/
def genRangeInclFloat (s e t : ℚ) : ℚ := s + max 0 (min 1 t) * (e - s)

/-- Embedding of `rand_float_range` (`rand_float(start, end)`): reject
`start >= end`, else sample the inclusive range `start..=end`. -/
def rand_float_range (s e : ℚ) (t : ℚ) : Except EvalAltResult ℚ :=
  if s ≥ e then
    .error (.ErrorArithmetic ("Range is empty: " ++ toString s ++ ".." ++ toString e))
  else .ok (genRangeInclFloat s e t)

/-- Model of `rand::thread_rng().gen_bool(p)` for `0 ≤ p ≤ 1`: the Bernoulli
sampler compares a uniform draw `u` on `[0, 1)` against `p`. -/
def gen_bool (p u : ℚ) : Bool := decide (u < p)

/-- Embedding of `rand_bool_with_probability` (`rand(p)`): reject
`p < 0.0 || p > 1.0`, else perform a Bernoulli trial. -/
def rand_bool_with_probability (p : ℚ) (u : ℚ) : Except EvalAltResult Bool :=
  if p < 0 ∨ p > 1 then
    .error (.ErrorArithmetic
      ("Invalid probability (must be between 0.0 and 1.0): " ++ toString p))
  else .ok (gen_bool p u)

/-- C1 (counterexample): the two-argument form `rand(start, end)` is
documented as inclusive, yet `rand(0, 0)` fails with the empty-range error
instead of succeeding with the single value `0`, refuting the claim that
every inclusive-range entry point succeeds when `start = end`. -/
theorem rand_from_to_inclusive_rejects_singleton :
    (rand_from_to_inclusive 0 0 0).isOk = false := rfl

/-- C1 (amended): the exclusive range literal fails exactly when
`start ≥ end` and the inclusive range literal exactly when `start > end` —
in particular an inclusive literal with `start = end` succeeds and always
returns that single value — but the two-argument form, although it samples
`start..=end` on success, rejects `start ≥ end`, so `start = end` fails
there rather than succeeding. -/
theorem rand_range_empty_range_spec (s e : ℤ) (seed : ℕ) :
    ((rand_exclusive_range s e seed).isOk ↔ s < e) ∧
    ((rand_inclusive_range s e seed).isOk ↔ s ≤ e) ∧
    ((rand_from_to_inclusive s e seed).isOk ↔ s < e) ∧
    (s = e → rand_inclusive_range s e seed = .ok s) := by
  refine ⟨?_, ?_, ?_, ?_⟩
  · unfold rand_exclusive_range
    by_cases h : e ≤ s
    · rw [if_pos h]
      exact ⟨(fun hok => nomatch hok), fun hlt => absurd hlt (by omega)⟩
    · rw [if_neg h]
      exact ⟨fun _ => by omega, fun _ => rfl⟩
  · unfold rand_inclusive_range
    by_cases h : e < s
    · rw [if_pos h]
      exact ⟨(fun hok => nomatch hok), fun hle => absurd hle (by omega)⟩
    · rw [if_neg h]
      exact ⟨fun _ => by omega, fun _ => rfl⟩
  · unfold rand_from_to_inclusive
    by_cases h : s ≥ e
    · rw [if_pos h]
      exact ⟨(fun hok => nomatch hok), fun hlt => absurd hlt (by omega)⟩
    · rw [if_neg h]
      exact ⟨fun _ => by omega, fun _ => rfl⟩
  · intro h
    subst h
    unfold rand_inclusive_range genRangeIncl
    simp

/-- Witness for C1: the inclusive literal `rand(7..=7)` always returns `7`. -/
theorem rand_range_empty_range_spec_witness :
    rand_inclusive_range 7 7 5 = .ok 7 :=
  (rand_range_empty_range_spec 7 7 5).2.2.2 rfl

/-- C2 (code evaluated at the failing input): `rand_float(0.0, 1.0)` samples
the inclusive range `0.0..=1.0` that the code passes to `gen_range`, so the
top draw returns exactly `1.0`, i.e. `end` itself — contradicting the
documented half-open interval `[start, end)`. -/
theorem rand_float_range_hits_upper_bound :
    rand_float_range 0 1 1 = .ok 1 := by
  norm_num [rand_float_range, genRangeInclFloat]

/-- Over `List.range n`, the entries below `m` number `min m n`. -/
lemma length_filter_range_lt (m n : ℕ) :
    ((List.range n).filter fun k => decide (k < m)).length = min m n := by
  induction n with
  | zero => simp
  | succ n ih =>
      rw [List.range_succ, List.filter_append]
      by_cases h : n < m <;> simp [h, ih] <;> omega

/-- C3: probability-weighted boolean sampling fails exactly when `p` lies
outside `[0, 1]`; inside the domain it returns normally with the Bernoulli
trial `u < p`, and over the uniform grid of draws `u = k/den`,
`k = 0, …, den-1`, the trial is true for exactly `num` of the `den` draws
when `p = num/den` — true with probability exactly `p`. No other outcome
exists. -/
theorem rand_bool_with_probability_spec (p u : ℚ) :
    ((rand_bool_with_probability p u).isOk ↔ 0 ≤ p ∧ p ≤ 1) ∧
    (0 ≤ p → p ≤ 1 → rand_bool_with_probability p u = .ok (gen_bool p u)) ∧
    (∀ num den : ℕ, 0 < den → num ≤ den →
      ((List.range den).filter fun (k : ℕ) =>
        gen_bool ((num : ℚ) / (den : ℚ)) ((k : ℚ) / (den : ℚ))).length = num) := by
  refine ⟨?_, ?_, ?_⟩
  · unfold rand_bool_with_probability
    by_cases h : p < 0 ∨ p > 1
    · rw [if_pos h]
      constructor
      · intro hok; exact nomatch hok
      · rintro ⟨h0, h1⟩
        rcases h with h | h
        · exact absurd h0 (by linarith)
        · exact absurd h1 (by linarith)
    · rw [if_neg h]
      push_neg at h
      exact ⟨fun _ => ⟨h.1, h.2⟩, fun _ => rfl⟩
  · intro h0 h1
    unfold rand_bool_with_probability
    rw [if_neg]
    push_neg
    exact ⟨h0, h1⟩
  · intro num den hden hle
    have hcast : (0 : ℚ) < (den : ℚ) := by exact_mod_cast hden
    have hcong : ∀ k ∈ List.range den,
        gen_bool ((num : ℚ) / (den : ℚ)) ((k : ℚ) / (den : ℚ)) = decide (k < num) := by
      intro k _
      unfold gen_bool
      have hiff : ((k : ℚ) / (den : ℚ) < (num : ℚ) / (den : ℚ)) ↔ (k < num) := by
        rw [div_lt_div_iff_of_pos_right hcast]
        exact_mod_cast Iff.rfl
      rw [decide_eq_decide]
      exact hiff
    rw [List.filter_congr hcong, length_filter_range_lt]
    omega

/-- Witness for C3: `rand(0.5)` with draw `u = 1/4` returns `ok true`, and
with `p = 3/4` exactly 3 of the 4 grid draws are true. -/
theorem rand_bool_with_probability_spec_witness :
    rand_bool_with_probability (1/2) (1/4) = .ok (gen_bool (1/2) (1/4)) ∧
    ((List.range 4).filter fun (k : ℕ) =>
      gen_bool ((3 : ℚ) / (4 : ℚ)) ((k : ℚ) / (4 : ℚ))).length = 3 :=
  ⟨(rand_bool_with_probability_spec (1/2) (1/4)).2.1 (by norm_num) (by norm_num),
   (rand_bool_with_probability_spec (1/2) (1/4)).2.2 3 4 (by norm_num) (by norm_num)⟩

/-- Swap the elements of `l` at positions `i` and `j` (`<[T]>::swap`); out of
bounds leaves the list unchanged (the callers below only use in-bounds
indices). -/
def listSwap (l : List α) (i j : ℕ) : List α :=
  match l[i]?, l[j]? with
  | some a, some b => (l.set i b).set j a
  | _, _ => l

/-- Steps of `SliceRandom::shuffle` from `rand` 0.8 (Fisher–Yates): for `i`
from `len-1` down to `1`, swap position `i` with `gen_range(0..=i)`. The
list `cs` supplies the successive rng draws; the draw at step `i` is reduced
modulo `i+1`, so a uniform seed gives the uniform index. A missing draw
leaves the remaining positions untouched (valid draw lists, `seedSpace`
below, carry exactly one draw per step). -/
def fyAux : List α → ℕ → List ℕ → List α
  | l, 0, _ => l
  | l, _+1, [] => l
  | l, i+1, c :: cs => fyAux (listSwap l (i+1) (c % (i+2))) i cs

/-- Model of `array.shuffle(&mut rng)` on a list. -/
def shuffleModel (l : List α) (cs : List ℕ) : List α := fyAux l (l.length - 1) cs

/-- Embedding of `shuffle(array: &mut Array)`: the mutable borrow threaded
explicitly — first component the final state of the caller's array, second
the (unit) return value. -/
def shuffle_mut (array : List α) (cs : List ℕ) : List α × Unit :=
  (shuffleModel array cs, ())

/-- Model of `SliceRandom::choose`: `None` on an empty slice, otherwise the
element at `gen_range(0..len)`, the rng draw exposed as `seed % len`. -/
def choose (l : List α) (seed : ℕ) : Option α :=
  if l.isEmpty then none else l[seed % l.length]?

/-- Embedding of `sample(array: &mut Array)`: the mutable borrow threaded
explicitly (first component = final state of `array`). `Dynamic::UNIT` is
modelled as `none`, a returned element as `some`; `res.clone()` is a value
copy. -/
def sample_mut (array : List α) (seed : ℕ) : List α × Option α :=
  if array.isEmpty = false then
    match choose array seed with
    | some res => (array, some res)
    | none => (array, none)
  else (array, none)

/-- Value returned by `sample(array: &mut Array)`. -/
def sample (array : List α) (seed : ℕ) : Option α := (sample_mut array seed).2

/-- Model of `SliceRandom::choose_multiple(rng, amount).cloned().collect()`
for `amount < len`: `rand` samples `amount` distinct indices below `len`
(`rand::seq::index::sample`, whose in-place branch is a partial Fisher–Yates
over the index vector) and yields the elements at those indices. We reuse
the Fisher–Yates model on `List.range len` and keep its first `amount`
indices. -/
def chooseMultiple (l : List α) (amount : ℕ) (code : List ℕ) : List α :=
  ((shuffleModel (List.range l.length) code).take amount).filterMap fun i => l[i]?

/-- Embedding of `sample_with_amount(array: &mut Array, amount: INT)`, the
mutable borrow threaded explicitly (first component = final state of
`array`). `code1`/`code2` are the rng draws consumed by the `rand`
primitives the taken branch calls. -/
def sample_with_amount_mut (array : List α) (amount : ℤ) (code1 code2 : List ℕ) :
    List α × List α :=
  if array.isEmpty ∨ amount ≤ 0 then (array, [])
  else
    let k := amount.toNat
    if k ≥ array.length then
      let res := array
      let res' := shuffleModel res code1
      (array, res')
    else
      let res := chooseMultiple array k code1
      let res' := shuffleModel res code2
      (array, res')

/-- Value returned by `sample(array: &mut Array, amount: INT)`. -/
def sample_with_amount (array : List α) (amount : ℤ) (code1 code2 : List ℕ) : List α :=
  (sample_with_amount_mut array amount code1 code2).2

/-- All valid rng draw lists for a Fisher–Yates run whose first step swaps
position `i`: one draw per step, the draw for step `i - k` (the `k`-th
entry) lying in `[0, i - k]`. Enumerated as a list so counting arguments
are direct. -/
def seedSpace : ℕ → List (List ℕ)
  | 0 => [[]]
  | i+1 => (List.range (i+2)).flatMap fun c => (seedSpace i).map (c :: ·)

/-- Prepending the element found at position `m` after overwriting that
position is a permutation: `t[m] = b` gives `b :: t.set m a ~ a :: t`. -/
lemma cons_set_perm (t : List α) : ∀ (m : ℕ) (a b : α), t[m]? = some b →
    (b :: t.set m a).Perm (a :: t) := by
  induction t with
  | nil => intro m a b h; simp at h
  | cons c t' ih =>
      intro m a b h
      cases m with
      | zero =>
          rw [List.getElem?_cons_zero, Option.some_inj] at h
          subst h
          rw [List.set_cons_zero]
          exact List.Perm.swap _ _ _
      | succ m =>
          rw [List.getElem?_cons_succ] at h
          rw [List.set_cons_succ]
          have h2 : (b :: c :: t'.set m a).Perm (c :: b :: t'.set m a) :=
            List.Perm.swap c b _
          have h3 : (c :: b :: t'.set m a).Perm (c :: a :: t') := (ih m a b h).cons c
          have h4 : (c :: a :: t').Perm (a :: c :: t') := List.Perm.swap a c t'
          exact h2.trans (h3.trans h4)

/-- `listSwap` on a `cons` with both indices positive acts on the tail. -/
lemma listSwap_cons_succ (c : α) (t : List α) (m k : ℕ) :
    listSwap (c :: t) (m+1) (k+1) = c :: listSwap t m k := by
  unfold listSwap
  rw [List.getElem?_cons_succ, List.getElem?_cons_succ]
  cases t[m]? <;> cases t[k]? <;> simp

/-- Swapping two positions permutes the list. -/
lemma listSwap_perm : ∀ (l : List α) (i j : ℕ), (listSwap l i j).Perm l := by
  intro l
  induction l with
  | nil =>
      intro i j
      unfold listSwap
      simp
  | cons c t ih =>
      intro i j
      match i, j with
      | 0, 0 =>
          unfold listSwap
          simp
      | 0, k+1 =>
          unfold listSwap
          rw [List.getElem?_cons_zero, List.getElem?_cons_succ]
          cases hk : t[k]? with
          | none => simp
          | some b =>
              simp only [List.set_cons_zero, List.set_cons_succ]
              exact cons_set_perm t k c b hk
      | m+1, 0 =>
          unfold listSwap
          rw [List.getElem?_cons_succ, List.getElem?_cons_zero]
          cases hm : t[m]? with
          | none => simp
          | some a =>
              simp only [List.set_cons_succ, List.set_cons_zero]
              exact cons_set_perm t m c a hm
      | m+1, k+1 =>
          rw [listSwap_cons_succ]
          exact (ih m k).cons c

/-- Each Fisher–Yates pass permutes the list. -/
lemma fyAux_perm : ∀ (i : ℕ) (cs : List ℕ) (l : List α), (fyAux l i cs).Perm l := by
  intro i
  induction i with
  | zero => intro cs l; exact List.Perm.refl l
  | succ i ih =>
      intro cs l
      cases cs with
      | nil => exact List.Perm.refl l
      | cons c cs =>
          exact (ih cs _).trans (listSwap_perm l (i+1) (c % (i+2)))

/-- The shuffle model permutes the list. -/
lemma shuffleModel_perm (l : List α) (cs : List ℕ) : (shuffleModel l cs).Perm l :=
  fyAux_perm (l.length - 1) cs l

/-- C8: `shuffle` mutates the caller's array in place and returns unit; the
final array is a permutation of the original — length and the exact multiset
of elements are preserved, only positions change — and arrays of length at
most 1 are left exactly unchanged. -/
theorem shuffle_spec (l : List α) (cs : List ℕ) :
    (shuffle_mut l cs).2 = () ∧
    (shuffle_mut l cs).1.Perm l ∧
    (shuffle_mut l cs).1.length = l.length ∧
    (l.length ≤ 1 → (shuffle_mut l cs).1 = l) := by
  refine ⟨rfl, shuffleModel_perm l cs, (shuffleModel_perm l cs).length_eq, ?_⟩
  intro h
  have h0 : l.length - 1 = 0 := by omega
  show shuffleModel l cs = l
  unfold shuffleModel
  rw [h0]
  rfl

/-- Witness for C8: a singleton array is left unchanged. -/
theorem shuffle_spec_witness : (shuffle_mut ([5] : List ℕ) [3]).1 = [5] :=
  (shuffle_spec [5] [3]).2.2.2 (by decide)

/-- C10: neither sampling function modifies the caller's array, although both
receive it by mutable reference: in the threaded-state embeddings the array
comes back unchanged — same length, same elements, same order — and the
returned values are copies. -/
theorem sample_preserves_input (l : List α) (seed : ℕ) (a : ℤ) (c1 c2 : List ℕ) :
    (sample_mut l seed).1 = l ∧ (sample_with_amount_mut l a c1 c2).1 = l := by
  constructor
  · unfold sample_mut
    by_cases h : l.isEmpty = false
    · rw [if_pos h]
      cases choose l seed <;> rfl
    · rw [if_neg h]
  · unfold sample_with_amount_mut
    by_cases h : (l.isEmpty : Prop) ∨ a ≤ 0
    · rw [if_pos h]
    · rw [if_neg h]
      by_cases h2 : a.toNat ≥ l.length
      · simp only [if_pos h2]
      · simp only [if_neg h2]

/-- On a non-empty list `sample` returns the element at index
`seed % length`. -/
lemma sample_eq_getElem (l : List α) (h : l ≠ []) (s : ℕ) :
    sample l s = l[s % l.length]? := by
  have hne : l.isEmpty = false := by simp [h]
  have hlt : s % l.length < l.length := Nat.mod_lt _ (List.length_pos.mpr h)
  unfold sample sample_mut choose
  rw [hne, List.getElem?_eq_getElem hlt]
  simp

/-- Indices of `List.range l.length` holding the value `v` number
`l.count v`. -/
lemma length_filter_range_getElem [DecidableEq α] (l : List α) (v : α) :
    ((List.range l.length).filter fun s => decide (l[s]? = some v)).length
      = l.count v := by
  induction l with
  | nil => simp
  | cons a t ih =>
      rw [List.length_cons, List.range_succ_eq_map, List.filter_cons, List.filter_map]
      have hcomp : ((fun s => decide ((a :: t)[s]? = some v)) ∘ Nat.succ)
          = fun s => decide (t[s]? = some v) := by
        funext s
        simp [Function.comp]
      rw [hcomp]
      by_cases hv : a = v
      · simp [hv, List.count_cons, ih]
      · simp [hv, List.count_cons, ih]

/-- C7: `sample` on a non-empty array returns a copy of one of its elements,
selected by a uniform index draw with probability `1/n` each: over the `n`
equally likely draws `0, …, n-1`, each value `v` is returned exactly
`count v` times. On an empty array it returns the unit value (`none`), a
defined non-failure outcome distinguishable from any element. -/
theorem sample_spec [DecidableEq α] (l : List α) (seed : ℕ) :
    (l = [] → sample l seed = none) ∧
    (l ≠ [] → ∃ i, i < l.length ∧ sample l seed = l[i]?) ∧
    (l ≠ [] → ∀ v, ((List.range l.length).filter fun s =>
      decide (sample l s = some v)).length = l.count v) := by
  refine ⟨?_, ?_, ?_⟩
  · intro h; subst h; rfl
  · intro h
    exact ⟨seed % l.length, Nat.mod_lt _ (List.length_pos.mpr h),
      sample_eq_getElem l h seed⟩
  · intro h v
    have hcong : ∀ s ∈ List.range l.length,
        decide (sample l s = some v) = decide (l[s]? = some v) := by
      intro s hs
      rw [List.mem_range] at hs
      rw [sample_eq_getElem l h s, Nat.mod_eq_of_lt hs]
    rw [List.filter_congr hcong, length_filter_range_getElem]

/-- Witness for C7: `sample [3, 4]` with seed 5 yields the element at index
`5 % 2 = 1`, and value 3 is hit by exactly one of the two seeds. -/
theorem sample_spec_witness :
    (∃ i, i < ([3, 4] : List ℕ).length ∧
      sample ([3, 4] : List ℕ) 5 = ([3, 4] : List ℕ)[i]?) ∧
    ((List.range ([3, 4] : List ℕ).length).filter fun s =>
      decide (sample ([3, 4] : List ℕ) s = some 3)).length
        = ([3, 4] : List ℕ).count 3 :=
  ⟨(sample_spec [3, 4] 5).2.1 (by decide),
   (sample_spec [3, 4] 5).2.2 (by decide) 3⟩

/-- `filterMap` by `getElem?` over in-bounds indices keeps every index. -/
lemma length_filterMap_getElem (l : List α) (idx : List ℕ)
    (h : ∀ i ∈ idx, i < l.length) :
    (idx.filterMap fun i => l[i]?).length = idx.length := by
  induction idx with
  | nil => rfl
  | cons i t ih =>
      have hi : i < l.length := h i (List.mem_cons_self i t)
      simp only [List.filterMap_cons, List.getElem?_eq_getElem hi]
      simp [ih fun j hj => h j (List.mem_cons_of_mem i hj)]

/-- The first `k ≤ n` indices of a shuffled `List.range n` are distinct,
number `k`, and lie below `n`. -/
lemma take_shuffle_range_facts (n k : ℕ) (code : List ℕ) (hk : k ≤ n) :
    ((shuffleModel (List.range n) code).take k).Nodup ∧
    ((shuffleModel (List.range n) code).take k).length = k ∧
    (∀ i ∈ (shuffleModel (List.range n) code).take k, i < n) := by
  have hperm := shuffleModel_perm (List.range n) code
  refine ⟨?_, ?_, ?_⟩
  · exact (List.take_sublist k _).nodup (hperm.nodup_iff.mpr (List.nodup_range n))
  · rw [List.length_take, hperm.length_eq, List.length_range]
    omega
  · intro i hi
    have hmem : i ∈ shuffleModel (List.range n) code := List.mem_of_mem_take hi
    exact List.mem_range.mp (hperm.mem_iff.mp hmem)

/-- For `k ≤ n` the selection primitive returns exactly `k` elements. -/
lemma chooseMultiple_length (l : List α) (k : ℕ) (code : List ℕ)
    (hk : k ≤ l.length) :
    (chooseMultiple l k code).length = k := by
  obtain ⟨hnd, hlen, hmem⟩ := take_shuffle_range_facts l.length k code hk
  unfold chooseMultiple
  rw [length_filterMap_getElem l _ hmem, hlen]

/-- C4: `sample(array, amount)` never fails and returns exactly
`min(max(amount, 0), n)` elements (`Int.toNat` is that clamping): an empty
source or `amount ≤ 0` gives the empty array — a defined outcome, not an
error — `amount ≥ n` gives `n` elements, and `0 < amount < n` gives
exactly `amount`. -/
theorem sample_with_amount_length (l : List α) (a : ℤ) (c1 c2 : List ℕ) :
    (sample_with_amount l a c1 c2).length = min a.toNat l.length := by
  unfold sample_with_amount sample_with_amount_mut
  by_cases h1 : (l.isEmpty : Prop) ∨ a ≤ 0
  · rw [if_pos h1]
    have h0 : l = [] ∨ a.toNat = 0 := by
      rcases h1 with h | h
      · exact Or.inl (by simpa using h)
      · exact Or.inr (by omega)
    rcases h0 with h | h
    · subst h; simp
    · simp [h]
  · rw [if_neg h1]
    push_neg at h1
    show (if a.toNat ≥ l.length then (l, shuffleModel l c1)
      else (l, shuffleModel (chooseMultiple l a.toNat c1) c2)).2.length
        = min a.toNat l.length
    by_cases h2 : a.toNat ≥ l.length
    · rw [if_pos h2]
      show (shuffleModel l c1).length = _
      rw [(shuffleModel_perm l c1).length_eq]
      omega
    · rw [if_neg h2]
      show (shuffleModel (chooseMultiple l a.toNat c1) c2).length = _
      rw [(shuffleModel_perm _ c2).length_eq,
        chooseMultiple_length l _ c1 (by omega)]
      omega

/-- C5: for `amount ≥ n` the result of `sample(array, amount)` is a full
shuffle of a copy of the input: a permutation of the entire array — same
multiset of elements, length `n` — produced by the full-shuffle model
rather than kept in the original order. -/
theorem sample_with_amount_ge_perm (l : List α) (a : ℤ) (c1 c2 : List ℕ)
    (h : (l.length : ℤ) ≤ a) :
    (sample_with_amount l a c1 c2).Perm l ∧
    (sample_with_amount l a c1 c2).length = l.length ∧
    sample_with_amount l a c1 c2 = shuffleModel l c1 := by
  have hres : sample_with_amount l a c1 c2 = shuffleModel l c1 := by
    unfold sample_with_amount sample_with_amount_mut
    by_cases h1 : (l.isEmpty : Prop) ∨ a ≤ 0
    · rw [if_pos h1]
      have hnil : l = [] := by
        rcases h1 with hh | hh
        · simpa using hh
        · have hl0 : l.length = 0 := by omega
          exact List.length_eq_zero.mp hl0
      subst hnil
      rfl
    · rw [if_neg h1]
      push_neg at h1
      show (if a.toNat ≥ l.length then (l, shuffleModel l c1)
        else (l, shuffleModel (chooseMultiple l a.toNat c1) c2)).2
          = shuffleModel l c1
      rw [if_pos (by omega)]
  exact ⟨hres ▸ shuffleModel_perm l c1,
    hres ▸ (shuffleModel_perm l c1).length_eq, hres⟩

/-- Witness for C5: sampling 5 out of a 3-element array returns a
permutation of the whole array. -/
theorem sample_with_amount_ge_perm_witness :
    (sample_with_amount ([1, 2, 3] : List ℕ) 5 [2, 1] [0]).Perm [1, 2, 3] :=
  (sample_with_amount_ge_perm [1, 2, 3] 5 [2, 1] [0] (by decide)).1

/-- C6: for `0 < amount < n`, `sample(array, amount)` returns exactly
`amount` elements drawn at `amount` distinct positions of the input —
selected without replacement, so no element is used beyond its original
multiplicity — each returned element a member of the input array. -/
theorem sample_with_amount_lt_distinct (l : List α) (a : ℤ) (c1 c2 : List ℕ)
    (h0 : 0 < a) (hn : a < (l.length : ℤ)) :
    ∃ idx : List ℕ, idx.Nodup ∧ idx.length = a.toNat ∧
      (∀ i ∈ idx, i < l.length) ∧
      (sample_with_amount l a c1 c2).Perm (idx.filterMap fun i => l[i]?) ∧
      (sample_with_amount l a c1 c2).length = a.toNat ∧
      ∀ x ∈ sample_with_amount l a c1 c2, x ∈ l := by
  have hk : a.toNat < l.length := by omega
  obtain ⟨hnd, hlen, hmem⟩ := take_shuffle_range_facts l.length a.toNat c1 (by omega)
  have hres : sample_with_amount l a c1 c2
      = shuffleModel (chooseMultiple l a.toNat c1) c2 := by
    unfold sample_with_amount sample_with_amount_mut
    have h1 : ¬ ((l.isEmpty : Prop) ∨ a ≤ 0) := by
      push_neg
      constructor
      · intro hemp
        have hnil : l = [] := by simpa using hemp
        rw [hnil] at hn
        simp at hn
        omega
      · omega
    rw [if_neg h1]
    show (if a.toNat ≥ l.length then (l, shuffleModel l c1)
      else (l, shuffleModel (chooseMultiple l a.toNat c1) c2)).2
        = shuffleModel (chooseMultiple l a.toNat c1) c2
    rw [if_neg (by omega)]
  refine ⟨(shuffleModel (List.range l.length) c1).take a.toNat,
    hnd, hlen, hmem, ?_, ?_, ?_⟩
  · rw [hres]
    exact shuffleModel_perm _ c2
  · rw [hres, (shuffleModel_perm _ c2).length_eq,
      chooseMultiple_length l _ c1 (le_of_lt hk)]
  · intro x hx
    rw [hres] at hx
    have hx2 : x ∈ chooseMultiple l a.toNat c1 :=
      ((shuffleModel_perm _ c2).mem_iff).mp hx
    unfold chooseMultiple at hx2
    rw [List.mem_filterMap] at hx2
    obtain ⟨i, _, hgi⟩ := hx2
    exact List.getElem?_mem hgi

/-- Witness for C6: sampling 2 out of a 3-element array. -/
theorem sample_with_amount_lt_distinct_witness :
    ∃ idx : List ℕ, idx.Nodup ∧ idx.length = (2 : ℤ).toNat ∧
      (∀ i ∈ idx, i < ([4, 5, 6] : List ℕ).length) ∧
      (sample_with_amount ([4, 5, 6] : List ℕ) 2 [1] [0]).Perm
        (idx.filterMap fun i => ([4, 5, 6] : List ℕ)[i]?) ∧
      (sample_with_amount ([4, 5, 6] : List ℕ) 2 [1] [0]).length = (2 : ℤ).toNat ∧
      ∀ x ∈ sample_with_amount ([4, 5, 6] : List ℕ) 2 [1] [0], x ∈ [4, 5, 6] :=
  sample_with_amount_lt_distinct [4, 5, 6] 2 [1] [0] (by decide) (by decide)

/-- The out-of-bounds arm: `getElem?` of some value implies an in-bounds
equality. -/
lemma getElem?_some_elim {l : List α} {n : ℕ} {a : α} (hn : n < l.length)
    (h : l[n]? = some a) : l[n] = a := by
  rw [List.getElem?_eq_getElem hn] at h
  exact Option.some_inj.mp h

/-- Members of `seedSpace i` have length `i`. -/
lemma seedSpace_length_mem : ∀ (i : ℕ) (cs : List ℕ), cs ∈ seedSpace i →
    cs.length = i := by
  intro i
  induction i with
  | zero =>
      intro cs h
      simp only [seedSpace, List.mem_singleton] at h
      simp [h]
  | succ i ih =>
      intro cs h
      rw [show seedSpace (i+1)
        = (List.range (i+2)).flatMap (fun c => (seedSpace i).map (c :: ·)) from rfl,
        List.mem_flatMap] at h
      obtain ⟨a, _, hmem⟩ := h
      rw [List.mem_map] at hmem
      obtain ⟨x, hx, heq⟩ := hmem
      subst heq
      simp [ih x hx]

/-- Cons characterization of `seedSpace` membership: the head is the draw for
the first step (bounded by `i + 1`), the tail a valid draw list for the
remaining steps. -/
lemma seedSpace_cons_mem (i c : ℕ) (cs : List ℕ) :
    (c :: cs) ∈ seedSpace (i+1) ↔ c ≤ i + 1 ∧ cs ∈ seedSpace i := by
  rw [show seedSpace (i+1)
    = (List.range (i+2)).flatMap (fun c => (seedSpace i).map (c :: ·)) from rfl,
    List.mem_flatMap]
  constructor
  · rintro ⟨a, ha, hmem⟩
    rw [List.mem_map] at hmem
    obtain ⟨x, hx, heq⟩ := hmem
    injection heq with h1 h2
    subst h1
    subst h2
    have := List.mem_range.mp ha
    exact ⟨by omega, hx⟩
  · rintro ⟨h1, h2⟩
    exact ⟨c, List.mem_range.mpr (by omega), List.mem_map.mpr ⟨cs, h2, rfl⟩⟩

/-- `seedSpace i` enumerates `(i+1)!` draw lists — for a run over `n = i+1`
positions, exactly `n!` of them. -/
lemma seedSpace_length : ∀ i : ℕ, (seedSpace i).length = (i+1).factorial := by
  intro i
  induction i with
  | zero => rfl
  | succ i ih =>
      show ((List.range (i+2)).flatMap
        fun c => (seedSpace i).map (c :: ·)).length = (i+2).factorial
      rw [List.length_flatMap]
      have hmap : List.map (List.length ∘ fun c => (seedSpace i).map (c :: ·))
          (List.range (i+2))
          = List.map (fun _ => (i+1).factorial) (List.range (i+2)) := by
        apply List.map_congr_left
        intro c _
        simp [Function.comp, List.length_map, ih]
      rw [hmap, List.map_const', List.sum_replicate, List.length_range,
        smul_eq_mul]
      exact (Nat.factorial_succ (i+1)).symm

/-- `seedSpace i` has no duplicate draw lists. -/
lemma seedSpace_nodup : ∀ i : ℕ, (seedSpace i).Nodup := by
  intro i
  induction i with
  | zero => simp [seedSpace]
  | succ i ih =>
      show ((List.range (i+2)).flatMap
        fun c => (seedSpace i).map (c :: ·)).Nodup
      rw [List.nodup_flatMap]
      constructor
      · intro c _
        exact ih.map List.cons_injective
      · refine List.Pairwise.imp ?_ (List.pairwise_lt_range (i+2))
        intro a b hab x hxa hxb
        rw [List.mem_map] at hxa hxb
        obtain ⟨x1, _, h1⟩ := hxa
        obtain ⟨x2, _, h2⟩ := hxb
        rw [← h2] at h1
        injection h1 with h1h _
        omega

/-- `listSwap` leaves every position other than the two swapped ones
unchanged. -/
lemma listSwap_getElem?_ne (l : List α) (i j k : ℕ) (h1 : k ≠ i) (h2 : k ≠ j) :
    (listSwap l i j)[k]? = l[k]? := by
  unfold listSwap
  cases hi : l[i]? with
  | none => rfl
  | some a =>
      cases hj : l[j]? with
      | none => rfl
      | some b =>
          rw [List.getElem?_set_ne (by omega : j ≠ k),
            List.getElem?_set_ne (by omega : i ≠ k)]

/-- After swapping in-bounds positions `i` and `j`, position `i` holds the
element that was at `j`. -/
lemma listSwap_getElem?_left (l : List α) (i j : ℕ) (hi : i < l.length)
    (hj : j < l.length) : (listSwap l i j)[i]? = l[j]? := by
  unfold listSwap
  rw [List.getElem?_eq_getElem hi, List.getElem?_eq_getElem hj]
  show ((l.set i l[j]).set j l[i])[i]? = some l[j]
  by_cases hij : i = j
  · subst hij
    rw [List.getElem?_set_self (by simpa using hi)]
  · rw [List.getElem?_set_ne (fun h => hij h.symm),
      List.getElem?_set_self hi]

/-- A Fisher–Yates pass starting at step `i` never touches positions
above `i`. -/
lemma fyAux_getElem?_high : ∀ (i : ℕ) (cs : List ℕ) (l : List α) (k : ℕ),
    i < k → (fyAux l i cs)[k]? = l[k]? := by
  intro i
  induction i with
  | zero => intro cs l k _; rfl
  | succ i ih =>
      intro cs l k hk
      cases cs with
      | nil => rfl
      | cons c cs =>
          show (fyAux (listSwap l (i+1) (c % (i+2))) i cs)[k]? = l[k]?
          rw [ih cs _ k (by omega)]
          have hm : c % (i+2) < i + 2 := Nat.mod_lt c (by omega)
          exact listSwap_getElem?_ne l (i+1) (c % (i+2)) k (by omega) (by omega)

/-- Two permuted lists that agree above position 0 are equal. -/
lemma eq_of_perm_of_agree_tail [DecidableEq α] (l l' : List α)
    (hagree : ∀ k, 0 < k → l[k]? = l'[k]?) (hperm : l.Perm l') : l = l' := by
  cases l with
  | nil =>
      rw [(hperm.symm.eq_nil : l' = [])]
  | cons a t =>
      cases l' with
      | nil => exact absurd hperm.eq_nil (List.cons_ne_nil a t)
      | cons a' t' =>
          have ht : t = t' := by
            apply List.ext_getElem?
            intro n
            have h1 := hagree (n+1) (by omega)
            simpa using h1
          subst ht
          have hcount := hperm.count_eq a
          rw [List.count_cons, List.count_cons] at hcount
          simp only [beq_self_eq_true, if_true] at hcount
          have haa : a = a' := by
            by_cases h : a' = a
            · exact h.symm
            · exfalso
              simp [h] at hcount
          rw [haa]

/-- Uniqueness core of Fisher–Yates: a duplicate-free list `l`, a target `l'`
that is a permutation of `l` agreeing with it above position `i`, and the
pass starting at step `i`: exactly one valid draw list produces `l'`. -/
lemma fy_exists_unique [DecidableEq α] :
    ∀ (i : ℕ) (l l' : List α), l.Nodup → i < l.length →
    (∀ k, i < k → l[k]? = l'[k]?) → l.Perm l' →
    ∃! cs, cs ∈ seedSpace i ∧ fyAux l i cs = l' := by
  intro i
  induction i with
  | zero =>
      intro l l' hnd _ hagree hperm
      have hl : l = l' := eq_of_perm_of_agree_tail l l' hagree hperm
      refine ⟨[], ⟨by simp [seedSpace], hl⟩, ?_⟩
      rintro cs ⟨hmem, _⟩
      simpa [seedSpace] using hmem
  | succ i ih =>
      intro l l' hnd hi hagree hperm
      have hlen : l.length = l'.length := hperm.length_eq
      have hi' : i + 1 < l'.length := by omega
      obtain ⟨e, he⟩ : ∃ e, l'[i+1]? = some e := by
        rw [List.getElem?_eq_getElem hi']
        exact ⟨_, rfl⟩
      have hel : e ∈ l := hperm.mem_iff.mpr (List.getElem?_mem he)
      have hnd' : l'.Nodup := hperm.nodup_iff.mp hnd
      set c := List.indexOf e l with hcdef
      have hcl : c < l.length := List.indexOf_lt_length.mpr hel
      have hgc : l[c]? = some e := by
        rw [List.getElem?_eq_getElem hcl]
        exact congrArg some (List.getElem_indexOf hcl)
      have hcle : c ≤ i + 1 := by
        by_contra hgt
        push_neg at hgt
        have h1 : l[c]? = l'[c]? := hagree c (by omega)
        have h2 : l'[c]? = some e := by rw [← h1]; exact hgc
        have hc' : c < l'.length := by omega
        have e1 : l'[c] = e := getElem?_some_elim hc' h2
        have e2 : l'[i+1] = e := getElem?_some_elim hi' he
        have hce : c = i + 1 := (hnd'.getElem_inj_iff).mp (by rw [e1, e2])
        omega
      have hswap := listSwap_perm l (i+1) c
      set l₁ := listSwap l (i+1) c with hl1def
      have hnd₁ : l₁.Nodup := hswap.nodup_iff.mpr hnd
      have hlen₁ : l₁.length = l.length := hswap.length_eq
      have hagree₁ : ∀ k, i < k → l₁[k]? = l'[k]? := by
        intro k hk
        by_cases hk1 : k = i + 1
        · subst hk1
          rw [hl1def, listSwap_getElem?_left l (i+1) c hi hcl, hgc, he]
        · rw [hl1def, listSwap_getElem?_ne l (i+1) c k (by omega) (by omega)]
          exact hagree k (by omega)
      obtain ⟨cs₀, ⟨hcs₀mem, hcs₀eq⟩, huniq⟩ :=
        ih l₁ l' hnd₁ (by omega) hagree₁ (hswap.trans hperm)
      have hmod : c % (i+2) = c := Nat.mod_eq_of_lt (by omega)
      refine ⟨c :: cs₀, ⟨?_, ?_⟩, ?_⟩
      · rw [seedSpace_cons_mem]
        exact ⟨hcle, hcs₀mem⟩
      · show fyAux (listSwap l (i+1) (c % (i+2))) i cs₀ = l'
        rw [hmod, ← hl1def]
        exact hcs₀eq
      · rintro ds ⟨hdsmem, hdseq⟩
        cases ds with
        | nil =>
            exfalso
            have := seedSpace_length_mem (i+1) [] hdsmem
            simp at this
        | cons d ds' =>
            rw [seedSpace_cons_mem] at hdsmem
            obtain ⟨hd, hds'⟩ := hdsmem
            have hmodd : d % (i+2) = d := Nat.mod_eq_of_lt (by omega)
            have heq2 : fyAux (listSwap l (i+1) d) i ds' = l' := by
              have hcomp : fyAux l (i+1) (d :: ds')
                  = fyAux (listSwap l (i+1) (d % (i+2))) i ds' := rfl
              rw [hcomp, hmodd] at hdseq
              exact hdseq
            have hout : l'[i+1]? = l[d]? := by
              rw [← heq2, fyAux_getElem?_high i ds' _ (i+1) (by omega)]
              exact listSwap_getElem?_left l (i+1) d hi (by omega)
            have hd_eq : d = c := by
              have hld : l[d]? = some e := by rw [← hout]; exact he
              have hdl : d < l.length := by omega
              have e1 : l[d] = e := getElem?_some_elim hdl hld
              have e2 : l[c] = e := getElem?_some_elim hcl hgc
              exact (hnd.getElem_inj_iff).mp (by rw [e1, e2])
            subst hd_eq
            have hds : ds' = cs₀ := huniq ds' ⟨hds', heq2⟩
            rw [hds]

/-- A duplicate-free list whose predicate has a unique witness filters to a
single element. -/
lemma length_filter_eq_one_of_unique {β : Type*} (p : β → Bool) :
    ∀ (L : List β), L.Nodup → ∀ x₀, x₀ ∈ L → p x₀ = true →
    (∀ x ∈ L, p x = true → x = x₀) → (L.filter p).length = 1 := by
  intro L
  induction L with
  | nil =>
      intro _ x₀ hx₀ _ _
      simp at hx₀
  | cons a t ih =>
      intro hnd x₀ hx₀ hp huniq
      rw [List.nodup_cons] at hnd
      rw [List.filter_cons]
      by_cases hpa : p a = true
      · rw [if_pos hpa]
        have ha0 : a = x₀ := huniq a (List.mem_cons_self a t) hpa
        have hft : t.filter p = [] := by
          rw [List.filter_eq_nil_iff]
          intro b hb hpb
          have hb0 : b = x₀ := huniq b (List.mem_cons_of_mem a hb) hpb
          have hat : a ∈ t := by rw [ha0, ← hb0]; exact hb
          exact hnd.1 hat
        rw [hft]
        rfl
      · rw [if_neg hpa]
        have hx₀t : x₀ ∈ t := by
          rcases List.mem_cons.mp hx₀ with h | h
          · exact absurd (h ▸ hp) hpa
          · exact h
        exact ih hnd.2 x₀ hx₀t hp
          fun x hx hpx => huniq x (List.mem_cons_of_mem a hx) hpx

/-- C9: the in-place shuffle is uniformly random. The model's seed space for
a length-`n` array — one uniform draw per Fisher–Yates step — has exactly
`n!` equally likely draw lists, and for a duplicate-free array every one of
the `n!` permutations is produced by exactly one of them: probability
`1/n!` each. -/
theorem shuffle_uniform [DecidableEq α] (l l' : List α) (hnd : l.Nodup)
    (hperm : l.Perm l') :
    ((seedSpace (l.length - 1)).filter fun cs =>
      decide (shuffleModel l cs = l')).length = 1 ∧
    (seedSpace (l.length - 1)).length = l.length.factorial := by
  constructor
  · by_cases hl : l = []
    · subst hl
      have hnil : l' = [] := hperm.symm.eq_nil
      subst hnil
      rfl
    · have hpos : 0 < l.length := List.length_pos.mpr hl
      have hagree : ∀ k, l.length - 1 < k → l[k]? = l'[k]? := by
        intro k hk
        have h1 : l.length ≤ k := by omega
        rw [List.getElem?_eq_none h1,
          List.getElem?_eq_none (by rw [← hperm.length_eq]; omega)]
      obtain ⟨cs₀, ⟨hmem, heq⟩, huniq⟩ :=
        fy_exists_unique (l.length - 1) l l' hnd (by omega) hagree hperm
      apply length_filter_eq_one_of_unique _ _ (seedSpace_nodup _) cs₀ hmem
      · exact decide_eq_true heq
      · intro cs hcs hpcs
        exact huniq cs ⟨hcs, of_decide_eq_true hpcs⟩
  · cases l with
    | nil => rfl
    | cons x xs =>
        rw [seedSpace_length]
        simp

/-- Witness for C9: for the 2-element array `[1, 2]`, exactly one of the
`2! = 2` draw lists produces the permutation `[2, 1]`. -/
theorem shuffle_uniform_witness :
    ((seedSpace (([1, 2] : List ℕ).length - 1)).filter fun cs =>
      decide (shuffleModel ([1, 2] : List ℕ) cs = [2, 1])).length = 1 ∧
    (seedSpace (([1, 2] : List ℕ).length - 1)).length
      = ([1, 2] : List ℕ).length.factorial :=
  shuffle_uniform [1, 2] [2, 1] (by decide) (by decide)

end RhaiRand
